import Mathlib

/-
  Formal model of roadpath (src/roadpath/path.py), a facade over the
  CPython 3.11 posixpath / pathlib.PurePosixPath string primitives.
  Paths are modelled at the character-list level as POSIX path strings;
  none of the operations verified here touches a filesystem.
-/

set_option maxRecDepth 8192

namespace Roadpath

/-- str.split on the separator character, CPython semantics: splitting the
empty string yields one empty piece. -/
def splitCh : List Char → List (List Char)
  | [] => [[]]
  | c :: cs =>
    let r := splitCh cs
    if c = '/' then [] :: r
    else (c :: r.headD []) :: r.tail

/-- Components kept by pathlib parsing and by normpath: empty and single-dot
pieces are dropped. -/
def keepCh (x : List Char) : Bool := decide (x ≠ [] ∧ x ≠ ['.'])

/-- Number of root separators; the shared classification of
posixpath.splitroot and os.path.normpath: a leading slash counts one, except
exactly two leading slashes count two (three or more count one again). -/
def rootCount (l : List Char) : Nat :=
  if l.take 1 = ['/'] then
    if l.take 2 = ['/', '/'] ∧ l.take 3 ≠ ['/', '/', '/'] then 2 else 1
  else 0

/-- The rest of the string after the root, as in posixpath.splitroot
(for three or more slashes only the first is removed). -/
def dropRoot (l : List Char) : List Char :=
  if rootCount l = 0 then l
  else if rootCount l = 2 then l.drop 2
  else l.drop 1

/-- The parsed state of a pathlib.PurePosixPath value: the root (0, 1 or 2
slashes) and the non-root components (empty and dot pieces dropped, dotdot
kept).  Two Path values are equal exactly when these states are equal. -/
structure PurePosixPath where
  root : Nat
  parts : List String
deriving DecidableEq

/-- The component list pathlib parses out of one string piece. -/
def comps (l : List Char) : List String :=
  ((splitCh l).filter keepCh).map String.mk

/-- pathlib.PurePosixPath(s): parse a single string argument. -/
def parsePath (s : String) : PurePosixPath :=
  ⟨rootCount s.data, comps (dropRoot s.data)⟩

def rootSlashes : Nat → List Char
  | 0 => []
  | 1 => ['/']
  | _ => ['/', '/']

/-- sep.join of the components. -/
def joinComps : List String → List Char
  | [] => []
  | [x] => x.data
  | x :: xs => x.data ++ '/' :: joinComps xs

/-- str(PurePosixPath): root then the joined components, with a dot for the
empty relative path. -/
def formatPath (p : PurePosixPath) : String :=
  let cs := rootSlashes p.root ++ joinComps p.parts
  if cs = [] then "." else String.mk cs

/-- Python exception values surfaced by the modelled operations.  pathError
models the module-defined PathError class; valueError the builtin the pathlib
primitives raise. -/
inductive PyExc where
  | valueError : String → PyExc
  | pathError : String → PyExc
deriving DecidableEq

/-- PurePath.name (CPython 3.11): the last component, or empty. -/
def PurePosixPath.name (p : PurePosixPath) : String := p.parts.getLastD ""

/-- PurePath.parent: drop the last component; a path with no components is
its own parent. -/
def PurePosixPath.parent (p : PurePosixPath) : PurePosixPath :=
  if p.parts = [] then p else ⟨p.root, p.parts.dropLast⟩

/-- Index of the last dot in a component (str.rfind), if any. -/
def lastDotIdx : List Char → Option Nat
  | [] => none
  | c :: cs =>
    match lastDotIdx cs with
    | some i => some (i + 1)
    | none => if c = '.' then some 0 else none

/-- PurePath.suffix on a final component: the tail from the last dot when
that dot sits strictly inside the name (not first, not last character). -/
def suffixCh (l : List Char) : List Char :=
  match lastDotIdx l with
  | some i => if 0 < i ∧ i < l.length - 1 then l.drop i else []
  | none => []

def PurePosixPath.suffix (p : PurePosixPath) : String :=
  String.mk (suffixCh p.name.data)

/-- PurePath.with_suffix (CPython 3.11), including its ValueError cases:
slash inside the suffix, malformed suffix, or an empty name. -/
def PurePosixPath.withSuffix (p : PurePosixPath) (suffix : String) :
    Except PyExc PurePosixPath :=
  if '/' ∈ suffix.data then .error (.valueError "Invalid suffix")
  else if (suffix ≠ "" ∧ suffix.data.take 1 ≠ ['.']) ∨ suffix = "." then
    .error (.valueError "Invalid suffix")
  else
    let name := p.name
    if name = "" then .error (.valueError "has an empty name")
    else
      let old := p.suffix
      let newName :=
        if old = "" then name ++ suffix
        else String.mk (name.data.take (name.data.length - old.data.length)) ++ suffix
      .ok ⟨p.root, p.parts.dropLast ++ [newName]⟩

/-- The comparison list used by PurePath.relative_to: anchored paths
contribute the drive and the root as two leading pseudo-components. -/
def PurePosixPath.absParts (p : PurePosixPath) : List String :=
  if p.root ≠ 0 then "" :: String.mk (rootSlashes p.root) :: p.parts else p.parts

/-- PurePath.relative_to (CPython 3.11): lexical prefix check over the
pseudo-component lists, ValueError when the receiver is not in the subpath of
the base. -/
def PurePosixPath.relative_to (self base : PurePosixPath) :
    Except PyExc PurePosixPath :=
  let a := self.absParts
  let b := base.absParts
  let n := b.length
  if (if n = 0 then self.root ≠ 0 else a.take n ≠ b) then
    .error (.valueError "is not in the subpath")
  else
    .ok ⟨if n = 1 then self.root else 0, a.drop n⟩

/-- Path(first, second): a later absolute segment discards what came before,
otherwise its components are appended. -/
def combine (a b : PurePosixPath) : PurePosixPath :=
  if b.root ≠ 0 then b else ⟨a.root, a.parts ++ b.parts⟩

/-- Path(*args): left fold of combine over the parsed arguments. -/
def pathOfArgs (args : List String) : PurePosixPath :=
  args.foldl (fun acc s => combine acc (parsePath s)) ⟨0, []⟩

/-- One iteration of the os.path.normpath component loop: dotdot pops the
previous component unless it must be kept. -/
def normStep (ini : Nat) (acc : List String) (comp : String) : List String :=
  if comp ≠ ".." ∨ (ini = 0 ∧ acc = []) ∨ (acc ≠ [] ∧ acc.getLast? = some "..") then
    acc ++ [comp]
  else if acc ≠ [] then acc.dropLast
  else acc

/-- os.path.normpath for POSIX (CPython 3.11). -/
def normpath (path : String) : String :=
  if path = "" then "."
  else
    let l := path.data
    let ini := rootCount l
    let newComps := (comps l).foldl (normStep ini) []
    let out := rootSlashes ini ++ joinComps newComps
    if out = [] then "." else String.mk out

/-- normpath expressed on an already parsed path; normpath factors through
parsing (normpath_parsePath below). -/
def normFromParsed (p : PurePosixPath) : String :=
  let newComps := p.parts.foldl (normStep p.root) []
  let out := rootSlashes p.root ++ joinComps newComps
  if out = [] then "." else String.mk out

/-- RoadPath wraps one pathlib Path value. -/
structure RoadPath where
  _path : PurePosixPath
deriving DecidableEq

/-- RoadPath(s) for a string argument: stores Path(s); never raises. -/
def RoadPath.ofString (s : String) : RoadPath := ⟨parsePath s⟩

/-- str(RoadPath) = str(self._path). -/
def RoadPath.toStr (p : RoadPath) : String := formatPath p._path

/-- The values RoadPath.__eq__ can be compared against; foreign objects of
any other type are collapsed into the indexed other constructor. -/
inductive PyObj where
  | road : RoadPath → PyObj
  | str : String → PyObj
  | path : PurePosixPath → PyObj
  | other : Nat → PyObj
deriving DecidableEq

/-- RoadPath.__eq__: compares the wrapped Path against RoadPath, str or Path
operands; returns False on any other type. -/
def RoadPath.eq (self : RoadPath) (o : PyObj) : Bool :=
  match o with
  | .road r => decide (self._path = r._path)
  | .str s => decide (self._path = parsePath s)
  | .path p => decide (self._path = p)
  | .other _ => false

/-- RoadPath.relative_to with a string base (the base is parsed by the
underlying primitive). -/
def RoadPath.relative_to (self : RoadPath) (base : String) :
    Except PyExc RoadPath :=
  (self._path.relative_to (parsePath base)).map (⟨·⟩)

/-- join(*parts) = str(Path(*parts)). -/
def join (parts : List String) : String := formatPath (pathOfArgs parts)

/-- dirname(path) = str(Path(path).parent). -/
def dirname (path : String) : String := formatPath (parsePath path).parent

/-- basename(path) = Path(path).name. -/
def basename (path : String) : String := (parsePath path).name

/-- splitext(path) = (str(Path(path).with_suffix("")), Path(path).suffix). -/
def splitext (path : String) : Except PyExc (String × String) :=
  ((parsePath path).withSuffix "").map
    (fun q => (formatPath q, (parsePath path).suffix))

/-- normalize(path) = os.path.normpath(path). -/
def normalize (path : String) : String := normpath path

/-- relative(path, base=None): base = base or os.getcwd() -- None and the
empty string both fall back to the current working directory, passed here as
an explicit parameter. -/
def relative (cwd : String) (path : String) (base : Option String) :
    Except PyExc String :=
  let b := match base with
    | none => cwd
    | some s => if s = "" then cwd else s
  ((parsePath path).relative_to (parsePath b)).map formatPath

/-- PathBuilder: an accumulator of segments, modelled by its state. -/
structure PathBuilder where
  _parts : List String
deriving DecidableEq

/-- builder(base=""): one base segment when the base string is truthy. -/
def builder (base : String) : PathBuilder :=
  ⟨if base = "" then [] else [base]⟩

/-- PathBuilder.add: appends the given segments in order. -/
def PathBuilder.add (b : PathBuilder) (parts : List String) : PathBuilder :=
  ⟨b._parts ++ parts⟩

/-- PathBuilder.parent: appends a literal dotdot segment. -/
def PathBuilder.parent (b : PathBuilder) : PathBuilder :=
  ⟨b._parts ++ [".."]⟩

/-- PathBuilder.build() = RoadPath(Path(*self._parts)). -/
def PathBuilder.build (b : PathBuilder) : RoadPath :=
  ⟨pathOfArgs b._parts⟩

/-- The process environment and user database consulted by expanduser and
expandvars, passed explicitly. -/
structure Env where
  vars : List (String × String)
  uidHome : Option String
  userDirs : List (String × String)

def Env.get (e : Env) (k : String) : Option String := e.vars.lookup k

def Env.getUser (e : Env) (k : String) : Option String := e.userDirs.lookup k

def rstripSlash (s : String) : String :=
  String.mk ((s.data.reverse.dropWhile (· = '/')).reverse)

/-- os.path.expanduser (POSIX): expand a leading tilde through HOME, the
current user home, or the user database; unknown users leave the path
unchanged. -/
def expanduser (env : Env) (path : String) : String :=
  match path.data with
  | '~' :: _ =>
    let i := 1 + (path.data.drop 1).findIdx (· = '/')
    let userhome :=
      if i = 1 then
        match env.get "HOME" with
        | some h => some h
        | none => env.uidHome
      else env.getUser (String.mk ((path.data.drop 1).take (i - 1)))
    match userhome with
    | none => path
    | some uh =>
      let stripped := rstripSlash uh
      let r := stripped.data ++ path.data.drop i
      if r = [] then "/" else String.mk r
  | _ => path

/-- An ASCII word character, the regex class used by expandvars. -/
def isWordChar (c : Char) : Bool := c.isAlphanum || c = '_'

/-- Split at the first closing brace: the body of a braced variable
reference, or none when the brace never closes. -/
def splitAtBrace : List Char → Option (List Char × List Char)
  | [] => none
  | c :: cs =>
    if c = '\x7d' then some ([], cs)
    else
      match splitAtBrace cs with
      | some (i, a) => some (c :: i, a)
      | none => none

/-- The scanning loop of os.path.expandvars, driven by fuel bounded by the
remaining length (every recursive call consumes at least one character, so
the fuel never runs out when primed with the length).  A substituted value
is emitted verbatim and never rescanned, and a reference whose variable is
unset stays in place while scanning continues after it. -/
def expandvarsAux (env : Env) : Nat → List Char → List Char
  | 0, l => l
  | _ + 1, [] => []
  | fuel + 1, c :: cs =>
    if c = '$' then
      match cs with
      | '\x7b' :: rest2 =>
        match splitAtBrace rest2 with
        | some (inner, after) =>
          match env.get (String.mk inner) with
          | some v => v.data ++ expandvarsAux env fuel after
          | none => '$' :: '\x7b' :: (inner ++ '\x7d' :: expandvarsAux env fuel after)
        | none => '$' :: expandvarsAux env fuel cs
      | _ =>
        let nm := cs.takeWhile isWordChar
        if nm = [] then '$' :: expandvarsAux env fuel cs
        else
          match env.get (String.mk nm) with
          | some v => v.data ++ expandvarsAux env fuel (cs.dropWhile isWordChar)
          | none => '$' :: (nm ++ expandvarsAux env fuel (cs.dropWhile isWordChar))
    else c :: expandvarsAux env fuel cs

/-- os.path.expandvars (POSIX): substitute dollar variables present in the
environment, leaving unknown or malformed references in place. -/
def expandvars (env : Env) (path : String) : String :=
  if '$' ∈ path.data then String.mk (expandvarsAux env path.data.length path.data)
  else path

/-- expand(path) = expandvars(expanduser(path)). -/
def expand (env : Env) (path : String) : String :=
  expandvars env (expanduser env path)

/-- The descendant condition relative_to enforces, under lexical comparison
of components. -/
def isLexicalDescendant (self base : PurePosixPath) : Bool :=
  let b := base.absParts
  if b.length = 0 then decide (self.root = 0)
  else decide (self.absParts.take b.length = b)

/-! Lemmas about splitting and joining on the separator. -/

theorem splitCh_ne_nil (l : List Char) : splitCh l ≠ [] := by
  cases l with
  | nil => simp [splitCh]
  | cons c cs =>
    simp only [splitCh]
    split <;> simp

theorem splitCh_slash (l : List Char) : splitCh ('/' :: l) = [] :: splitCh l := by
  simp [splitCh]

theorem splitCh_cons_ne {c : Char} (hc : c ≠ '/') (l : List Char) :
    splitCh (c :: l) = (c :: (splitCh l).headD []) :: (splitCh l).tail := by
  simp [splitCh, hc]

theorem splitCh_no_slash (l : List Char) : ∀ x ∈ splitCh l, '/' ∉ x := by
  induction l with
  | nil =>
    intro x hx
    simp [splitCh] at hx
    simp [hx]
  | cons c cs ih =>
    intro x hx
    by_cases hc : c = '/'
    · subst hc
      rw [splitCh_slash] at hx
      rcases List.mem_cons.mp hx with rfl | hx
      · simp
      · exact ih x hx
    · obtain ⟨t, ts, hts⟩ := List.exists_cons_of_ne_nil (splitCh_ne_nil cs)
      rw [splitCh_cons_ne hc, hts] at hx
      simp only [List.headD_cons, List.tail_cons] at hx
      rcases List.mem_cons.mp hx with rfl | hx
      · have ht := ih t (by rw [hts]; exact List.mem_cons_self _ _)
        intro hmem
        rcases List.mem_cons.mp hmem with heq | hmem
        · exact hc heq.symm
        · exact ht hmem
      · exact ih x (by rw [hts]; exact List.mem_cons_of_mem _ hx)

theorem splitCh_of_no_slash {l : List Char} (h : '/' ∉ l) : splitCh l = [l] := by
  induction l with
  | nil => rfl
  | cons c cs ih =>
    have hc : c ≠ '/' := fun hcc => h (by simp [hcc])
    have hcs : '/' ∉ cs := fun hm => h (by simp [hm])
    rw [splitCh_cons_ne hc, ih hcs]
    simp

theorem splitCh_append {x : List Char} (hx : '/' ∉ x) (l : List Char) :
    splitCh (x ++ '/' :: l) = x :: splitCh l := by
  induction x with
  | nil => simp [splitCh_slash]
  | cons c cs ih =>
    have hc : c ≠ '/' := fun hcc => hx (by simp [hcc])
    have hcs : '/' ∉ cs := fun hm => hx (by simp [hm])
    rw [List.cons_append, splitCh_cons_ne hc, ih hcs]
    simp

theorem joinComps_cons_ne {xs : List String} (h : xs ≠ []) (x : String) :
    joinComps (x :: xs) = x.data ++ '/' :: joinComps xs := by
  rcases xs with _ | ⟨y, ys⟩
  · exact absurd rfl h
  · rfl

theorem joinComps_head (x : String) (xs : List String) :
    ∃ t, joinComps (x :: xs) = x.data ++ t := by
  rcases xs with _ | ⟨y, ys⟩
  · exact ⟨[], by simp [joinComps]⟩
  · exact ⟨'/' :: joinComps (y :: ys), rfl⟩

theorem splitCh_joinComps {ps : List String} (hne : ps ≠ [])
    (hns : ∀ s ∈ ps, '/' ∉ s.data) :
    splitCh (joinComps ps) = ps.map String.data := by
  induction ps with
  | nil => exact absurd rfl hne
  | cons x xs ih =>
    cases xs with
    | nil =>
      rw [show joinComps [x] = x.data from rfl,
        splitCh_of_no_slash (hns x (List.mem_cons_self _ _))]
      rfl
    | cons y ys =>
      rw [joinComps_cons_ne (by simp), splitCh_append (hns x (List.mem_cons_self _ _)),
        ih (by simp) (fun s hs => hns s (List.mem_cons_of_mem _ hs))]
      rfl

theorem comps_joinComps {ps : List String}
    (h : ∀ s ∈ ps, s.data ≠ [] ∧ s.data ≠ ['.'] ∧ '/' ∉ s.data) :
    comps (joinComps ps) = ps := by
  rcases hps : ps with _ | ⟨x, xs⟩
  · rfl
  · rw [comps, splitCh_joinComps (by simp) (fun s hs => (h s (hps ▸ hs)).2.2)]
    have hfil : ((x :: xs).map String.data).filter keepCh = (x :: xs).map String.data := by
      rw [List.filter_eq_self]
      intro a ha
      rw [List.mem_map] at ha
      obtain ⟨s, hs, rfl⟩ := ha
      have hsv := h s (hps ▸ hs)
      simp [keepCh, hsv.1, hsv.2.1]
    rw [hfil, List.map_map]
    have hid : String.mk ∘ String.data = id := funext fun s => rfl
    rw [hid, List.map_id]

theorem comps_slash (l : List Char) : comps ('/' :: l) = comps l := by
  rw [comps, comps, splitCh_slash]
  simp [keepCh]

/-! Lemmas about the root classification. -/

theorem take_one_slash {l : List Char} (h : l.take 1 = ['/']) : ∃ t, l = '/' :: t := by
  rcases l with _ | ⟨c, t⟩
  · simp at h
  · simp at h
    exact ⟨t, by rw [h]⟩

theorem take_two_slash {l : List Char} (h : l.take 2 = ['/', '/']) :
    ∃ t, l = '/' :: '/' :: t := by
  rcases l with _ | ⟨c, _ | ⟨d, t⟩⟩
  · simp at h
  · simp at h
  · simp at h
    exact ⟨t, by rw [h.1, h.2]⟩

theorem rootCount_le_two (l : List Char) : rootCount l ≤ 2 := by
  unfold rootCount
  split
  · split <;> omega
  · omega

theorem rootCount_pos {l : List Char} (h : rootCount l ≠ 0) : ∃ t, l = '/' :: t := by
  unfold rootCount at h
  by_cases h1 : l.take 1 = ['/']
  · exact take_one_slash h1
  · rw [if_neg h1] at h
    exact absurd rfl h

theorem rootCount_two {l : List Char} (h : rootCount l = 2) :
    ∃ t, l = '/' :: '/' :: t := by
  unfold rootCount at h
  by_cases h1 : l.take 1 = ['/']
  · rw [if_pos h1] at h
    by_cases h2 : l.take 2 = ['/', '/'] ∧ l.take 3 ≠ ['/', '/', '/']
    · exact take_two_slash h2.1
    · rw [if_neg h2] at h
      exact absurd h (by omega)
  · rw [if_neg h1] at h
    exact absurd h (by omega)

theorem comps_dropRoot (l : List Char) : comps (dropRoot l) = comps l := by
  unfold dropRoot
  by_cases h0 : rootCount l = 0
  · rw [if_pos h0]
  · rw [if_neg h0]
    by_cases h2 : rootCount l = 2
    · rw [if_pos h2]
      obtain ⟨t, rfl⟩ := rootCount_two h2
      simp [comps_slash]
    · rw [if_neg h2]
      obtain ⟨t, rfl⟩ := rootCount_pos h0
      simp [comps_slash]

theorem rootCount_cons_ne {c : Char} (hc : c ≠ '/') (l : List Char) :
    rootCount (c :: l) = 0 := by
  unfold rootCount
  rw [if_neg (by simp [hc])]

theorem rootCount_slash_cons_ne {c : Char} (hc : c ≠ '/') (l : List Char) :
    rootCount ('/' :: c :: l) = 1 := by
  unfold rootCount
  rw [if_pos (by simp), if_neg (by simp [hc])]

theorem rootCount_double_cons_ne {c : Char} (hc : c ≠ '/') (l : List Char) :
    rootCount ('/' :: '/' :: c :: l) = 2 := by
  unfold rootCount
  rw [if_pos (by simp), if_pos (by simp [hc])]

/-! Validity of parsed parts and the parse/format round trip. -/

def ValidParts (ps : List String) : Prop :=
  ∀ s ∈ ps, s.data ≠ [] ∧ s.data ≠ ['.'] ∧ '/' ∉ s.data

theorem validParts_comps (l : List Char) : ValidParts (comps l) := by
  intro s hs
  rw [comps, List.mem_map] at hs
  obtain ⟨x, hx, rfl⟩ := hs
  rw [List.mem_filter] at hx
  have hk := hx.2
  rw [keepCh, decide_eq_true_eq] at hk
  exact ⟨hk.1, hk.2, splitCh_no_slash l x hx.1⟩

theorem valid_parsePath (s : String) :
    (parsePath s).root ≤ 2 ∧ ValidParts (parsePath s).parts :=
  ⟨rootCount_le_two _, validParts_comps _⟩

theorem mk_data (s : String) : String.mk s.data = s := rfl

theorem mk_append (l : List Char) (s : String) :
    String.mk l ++ s = String.mk (l ++ s.data) := by
  cases s
  rfl

theorem str_append_nil (s : String) : s ++ "" = s := by
  have h := mk_append s.data ""
  rw [mk_data] at h
  rw [List.append_nil] at h
  rw [mk_data] at h
  exact h

theorem parsePath_formatPath {p : PurePosixPath} (hroot : p.root ≤ 2)
    (hparts : ValidParts p.parts) : parsePath (formatPath p) = p := by
  obtain ⟨r, ps⟩ := p
  have hr2 : r ≤ 2 := hroot
  rcases ps with _ | ⟨x, xs⟩
  · interval_cases r <;> rfl
  · have hx : x.data ≠ [] ∧ x.data ≠ ['.'] ∧ '/' ∉ x.data :=
      hparts x (List.mem_cons_self _ _)
    obtain ⟨t, ht⟩ := joinComps_head x xs
    obtain ⟨d, ds, hd⟩ : ∃ d ds, x.data = d :: ds := by
      rcases hxx : x.data with _ | ⟨d, ds⟩
      · exact absurd hxx hx.1
      · exact ⟨d, ds, rfl⟩
    have hdn : d ≠ '/' := by
      intro hdd
      exact hx.2.2 (by rw [hd, hdd]; exact List.mem_cons_self _ _)
    have hj : joinComps (x :: xs) = d :: (ds ++ t) := by
      rw [ht, hd]
      rfl
    have hcj : comps (joinComps (x :: xs)) = x :: xs :=
      comps_joinComps (fun s hs => hparts s hs)
    interval_cases r
    · have hfmt : formatPath ⟨0, x :: xs⟩ = String.mk (joinComps (x :: xs)) := by
        simp only [formatPath, rootSlashes, List.nil_append]
        rw [if_neg (by rw [hj]; simp)]
      rw [hfmt]
      show (⟨rootCount (joinComps (x :: xs)),
        comps (dropRoot (joinComps (x :: xs)))⟩ : PurePosixPath) = ⟨0, x :: xs⟩
      have hrc : rootCount (joinComps (x :: xs)) = 0 := by
        rw [hj]; exact rootCount_cons_ne hdn _
      have hdr : dropRoot (joinComps (x :: xs)) = joinComps (x :: xs) := by
        rw [dropRoot, if_pos hrc]
      simp only [PurePosixPath.mk.injEq]
      exact ⟨hrc, by rw [hdr, hcj]⟩
    · have hfmt : formatPath ⟨1, x :: xs⟩ = String.mk ('/' :: joinComps (x :: xs)) := by
        simp only [formatPath, rootSlashes]
        rw [if_neg (by simp)]
        rfl
      rw [hfmt]
      show (⟨rootCount ('/' :: joinComps (x :: xs)),
        comps (dropRoot ('/' :: joinComps (x :: xs)))⟩ : PurePosixPath) = ⟨1, x :: xs⟩
      have hrc : rootCount ('/' :: joinComps (x :: xs)) = 1 := by
        rw [hj]; exact rootCount_slash_cons_ne hdn _
      have hdr : dropRoot ('/' :: joinComps (x :: xs)) = joinComps (x :: xs) := by
        rw [dropRoot, if_neg (by rw [hrc]; omega), if_neg (by rw [hrc]; omega)]
        simp
      simp only [PurePosixPath.mk.injEq]
      exact ⟨hrc, by rw [hdr, hcj]⟩
    · have hfmt : formatPath ⟨2, x :: xs⟩ =
          String.mk ('/' :: '/' :: joinComps (x :: xs)) := by
        simp only [formatPath, rootSlashes]
        rw [if_neg (by simp)]
        rfl
      rw [hfmt]
      show (⟨rootCount ('/' :: '/' :: joinComps (x :: xs)),
        comps (dropRoot ('/' :: '/' :: joinComps (x :: xs)))⟩ : PurePosixPath) = ⟨2, x :: xs⟩
      have hrc : rootCount ('/' :: '/' :: joinComps (x :: xs)) = 2 := by
        rw [hj]; exact rootCount_double_cons_ne hdn _
      have hdr : dropRoot ('/' :: '/' :: joinComps (x :: xs)) = joinComps (x :: xs) := by
        rw [dropRoot, if_neg (by rw [hrc]; omega), if_pos hrc]
        simp
      simp only [PurePosixPath.mk.injEq]
      exact ⟨hrc, by rw [hdr, hcj]⟩

theorem parsePath_formatPath_parsePath (s : String) :
    parsePath (formatPath (parsePath s)) = parsePath s :=
  parsePath_formatPath (rootCount_le_two _) (validParts_comps _)

theorem normpath_parsePath (s : String) :
    normpath s = normFromParsed (parsePath s) := by
  by_cases h : s = ""
  · subst h
    rfl
  · simp only [normpath, normFromParsed, parsePath, if_neg h, comps_dropRoot]

theorem basename_formatPath_parsePath (s : String) :
    basename (formatPath (parsePath s)) = basename s := by
  rw [basename, basename, parsePath_formatPath_parsePath]

theorem normalize_formatPath_parsePath (s : String) :
    normalize (formatPath (parsePath s)) = normalize s := by
  rw [normalize, normalize, normpath_parsePath, normpath_parsePath,
    parsePath_formatPath_parsePath]

/-! Appending text to the last component commutes with formatting. -/

theorem data_append (a b : String) : (a ++ b).data = a.data ++ b.data := by
  cases a
  cases b
  rfl

theorem joinComps_concat_append (ps : List String) (x y : String) :
    joinComps (ps ++ [x]) ++ y.data = joinComps (ps ++ [x ++ y]) := by
  induction ps with
  | nil => simp [joinComps, data_append]
  | cons a as ih =>
    rw [List.cons_append, joinComps_cons_ne (by simp),
      List.cons_append, joinComps_cons_ne (by simp)]
    rw [List.append_assoc, List.cons_append, ih]

theorem joinComps_concat_ne_nil {x : String} (hx : x.data ≠ []) (ps : List String) :
    joinComps (ps ++ [x]) ≠ [] := by
  cases ps with
  | nil => simpa [joinComps] using hx
  | cons a as =>
    rw [List.cons_append, joinComps_cons_ne (by simp)]
    simp

theorem formatPath_concat_append {x : String} (hx : x.data ≠ [])
    (r : Nat) (ps : List String) (y : String) :
    formatPath ⟨r, ps ++ [x]⟩ ++ y = formatPath ⟨r, ps ++ [x ++ y]⟩ := by
  have hxy : (x ++ y).data ≠ [] := by
    rw [data_append]
    simp [hx]
  have h1 : rootSlashes r ++ joinComps (ps ++ [x]) ≠ [] := by
    intro hc
    rw [List.append_eq_nil] at hc
    exact joinComps_concat_ne_nil hx ps hc.2
  have h2 : rootSlashes r ++ joinComps (ps ++ [x ++ y]) ≠ [] := by
    intro hc
    rw [List.append_eq_nil] at hc
    exact joinComps_concat_ne_nil hxy ps hc.2
  simp only [formatPath]
  rw [if_neg h1, if_neg h2, mk_append]
  congr 1
  rw [List.append_assoc, joinComps_concat_append]

/-! Path(*args) combination lemmas. -/

theorem pathOfArgs_pair (a b : String) :
    pathOfArgs [a, b] = combine (combine ⟨0, []⟩ (parsePath a)) (parsePath b) := rfl

theorem combine_init (x : PurePosixPath) : combine ⟨0, []⟩ x = x := by
  obtain ⟨r, ps⟩ := x
  by_cases h : r = 0 <;> simp [combine, h]

theorem combine_empty (x : PurePosixPath) : combine x ⟨0, []⟩ = x := by
  obtain ⟨r, ps⟩ := x
  simp [combine]

theorem parsePath_single {s : String} (h1 : s.data ≠ []) (h2 : s.data ≠ ['.'])
    (h3 : '/' ∉ s.data) : parsePath s = ⟨0, [s]⟩ := by
  obtain ⟨d, ds, hd⟩ : ∃ d ds, s.data = d :: ds := by
    rcases hxx : s.data with _ | ⟨d, ds⟩
    · exact absurd hxx h1
    · exact ⟨d, ds, rfl⟩
  have hdn : d ≠ '/' := by
    intro hdd
    exact h3 (by rw [hd, hdd]; exact List.mem_cons_self _ _)
  have hroot : rootCount s.data = 0 := by
    rw [hd]
    exact rootCount_cons_ne hdn _
  have hdrop : dropRoot s.data = s.data := by
    rw [dropRoot, if_pos hroot]
  show (⟨rootCount s.data, comps (dropRoot s.data)⟩ : PurePosixPath) = ⟨0, [s]⟩
  rw [hroot, hdrop, comps, splitCh_of_no_slash h3]
  simp [keepCh, h1, h2, mk_data]

/-! Error-shape lemmas: no modelled operation produces pathError. -/

theorem relative_to_not_pathError (a b : PurePosixPath) (m : String) :
    a.relative_to b ≠ .error (.pathError m) := by
  simp only [PurePosixPath.relative_to]
  repeat' split
  all_goals simp

theorem withSuffix_not_pathError (p : PurePosixPath) (s m : String) :
    p.withSuffix s ≠ .error (.pathError m) := by
  simp only [PurePosixPath.withSuffix]
  repeat' split
  all_goals simp

theorem map_not_pathError {α β : Type} (f : α → β) (x : Except PyExc α)
    (h : ∀ m, x ≠ .error (.pathError m)) (m : String) :
    x.map f ≠ .error (.pathError m) := by
  cases x with
  | ok v => simp [Except.map]
  | error e => simpa [Except.map] using h m

/-! The claims. -/

/-- C1 (counterexample): builder("/tmp").add("app").parent().add("data").build()
is NOT equal to RoadPath("/tmp/data"): build() joins the accumulated segments
without normalizing, so the dotdot appended by parent() does not cancel the
preceding app segment. -/
theorem claim_C1_counterexample :
    RoadPath.eq ((((builder "/tmp").add ["app"]).parent).add ["data"]).build
      (.road (RoadPath.ofString "/tmp/data")) = false := rfl

/-- C1 (amended): the builder expression returns a value equal to
RoadPath("/tmp/app/../data") -- parent() appends a literal dotdot segment and
build() joins all accumulated segments without normalization -- and only
normalizing the built string yields "/tmp/data". -/
theorem claim_C1_amended :
    RoadPath.eq ((((builder "/tmp").add ["app"]).parent).add ["data"]).build
      (.road (RoadPath.ofString "/tmp/app/../data")) = true
    ∧ ((((builder "/tmp").add ["app"]).parent).add ["data"]).build.toStr
        = "/tmp/app/../data"
    ∧ normalize ((((builder "/tmp").add ["app"]).parent).add ["data"]).build.toStr
        = "/tmp/data" :=
  ⟨rfl, rfl, rfl⟩

/-- C2 (counterexample): str(RoadPath(s)) does not preserve s as-is: for the
empty string the stored Path renders as a dot, so str(RoadPath("")) = "."
which differs from "". -/
theorem claim_C2_counterexample :
    RoadPath.toStr (RoadPath.ofString "") = "." ∧ ("." : String) ≠ "" :=
  ⟨rfl, by decide⟩

/-- C2 (amended): construction never raises (total in the model) but str
returns the parse-normalized rendering of s rather than s verbatim; that
rendering is a fixed point of construction, so str(RoadPath(str(RoadPath(s))))
= str(RoadPath(s)) and str preserves exactly the already-normalized strings. -/
theorem claim_C2_amended (s : String) :
    RoadPath.toStr (RoadPath.ofString (RoadPath.toStr (RoadPath.ofString s)))
      = RoadPath.toStr (RoadPath.ofString s) := by
  simp only [RoadPath.toStr, RoadPath.ofString]
  rw [parsePath_formatPath_parsePath]

/-- C3 (counterexample): normalize-equality does not imply RoadPath equality:
"a/b/../c" and "a/c" normalize to the same string but the RoadPath values
compare unequal, because Path equality keeps dotdot segments. -/
theorem claim_C3_counterexample :
    RoadPath.eq (RoadPath.ofString "a/b/../c") (.road (RoadPath.ofString "a/c")) = false
    ∧ normalize "a/b/../c" = normalize "a/c" :=
  ⟨rfl, rfl⟩

/-- C3 (amended): RoadPath(s) == RoadPath(t) holds iff the parsed (pathlib)
representations are equal -- separators collapsed, dot components and trailing
separators dropped, dotdot kept -- and this equality implies
normalize(s) = normalize(t), though not conversely. -/
theorem claim_C3_amended (s t : String) :
    (RoadPath.eq (RoadPath.ofString s) (.road (RoadPath.ofString t)) = true
      ↔ parsePath s = parsePath t)
    ∧ (RoadPath.eq (RoadPath.ofString s) (.road (RoadPath.ofString t)) = true
      → normalize s = normalize t) := by
  constructor
  · simp [RoadPath.eq, RoadPath.ofString]
  · intro h
    have hp : parsePath s = parsePath t := by
      simpa [RoadPath.eq, RoadPath.ofString] using h
    rw [normalize, normalize, normpath_parsePath, normpath_parsePath, hp]

theorem claim_C3_witness :
    RoadPath.eq (RoadPath.ofString "/a") (.road (RoadPath.ofString "/a/")) = true
    ∧ normalize "/a" = normalize "/a/" :=
  ⟨rfl, (claim_C3_amended "/a" "/a/").2 rfl⟩

/-- C4: for every non-empty path string p,
normalize(join(dirname(p), basename(p))) = normalize(p). -/
theorem claim_C4 (p : String) (_hp : p ≠ "") :
    normalize (join [dirname p, basename p]) = normalize p := by
  have hv := valid_parsePath p
  have hjoin : pathOfArgs [dirname p, basename p] = parsePath p := by
    rw [pathOfArgs_pair]
    rcases List.eq_nil_or_concat (parsePath p).parts with hnil | ⟨ps, nm, hcat⟩
    on_goal 2 => rw [List.concat_eq_append] at hcat
    · have hb : basename p = "" := by
        unfold basename PurePosixPath.name
        rw [hnil]
        rfl
      have hd : dirname p = formatPath (parsePath p) := by
        unfold dirname PurePosixPath.parent
        rw [if_pos hnil]
      rw [hb, hd, parsePath_formatPath_parsePath,
        show parsePath "" = (⟨0, []⟩ : PurePosixPath) from rfl, combine_init,
        combine_empty]
    · have hnm := hv.2 nm (by rw [hcat]; simp)
      have hb : basename p = nm := by
        unfold basename PurePosixPath.name
        rw [hcat]
        simp
      have hd : dirname p = formatPath ⟨(parsePath p).root, ps⟩ := by
        unfold dirname PurePosixPath.parent
        rw [if_neg (by rw [hcat]; simp), hcat]
        simp
      have hvps : ValidParts ps := fun s hs =>
        hv.2 s (by rw [hcat]; exact List.mem_append_left _ hs)
      have hdp : parsePath (dirname p) = ⟨(parsePath p).root, ps⟩ := by
        rw [hd]
        exact parsePath_formatPath hv.1 hvps
      rw [hb, hdp, combine_init, parsePath_single hnm.1 hnm.2.1 hnm.2.2,
        show combine ⟨(parsePath p).root, ps⟩ ⟨0, [nm]⟩
          = ⟨(parsePath p).root, ps ++ [nm]⟩ by simp [combine],
        ← hcat]
  unfold join
  rw [hjoin]
  exact normalize_formatPath_parsePath p

theorem claim_C4_witness :
    ("/a/b.txt" : String) ≠ ""
    ∧ normalize (join [dirname "/a/b.txt", basename "/a/b.txt"]) = normalize "/a/b.txt" :=
  ⟨by decide, claim_C4 "/a/b.txt" (by decide)⟩

/-- C5 (counterexample): splitext does not succeed on every path: for "/" the
underlying with_suffix("") raises ValueError because the path has an empty
name. -/
theorem claim_C5_counterexample :
    splitext "/" = .error (.valueError "has an empty name") := rfl

/-- C5 (amended): for every path whose final component is non-empty, splitext
succeeds and concatenating the returned root and extension reconstructs the
final component exactly: basename(root ++ ext) = basename(p).  When the final
component is empty (root paths, dot, the empty string) splitext raises
ValueError instead of succeeding. -/
theorem claim_C5_amended (s : String) (h : basename s ≠ "") :
    ∃ r e, splitext s = .ok (r, e) ∧ basename (r ++ e) = basename s := by
  have hv := valid_parsePath s
  have hptsne : (parsePath s).parts ≠ [] := by
    intro hc
    exact h (by unfold basename PurePosixPath.name; rw [hc]; rfl)
  obtain ⟨ps, nm, hcat⟩ := (List.eq_nil_or_concat (parsePath s).parts).resolve_left hptsne
  rw [List.concat_eq_append] at hcat
  have hnmv := hv.2 nm (by rw [hcat]; simp)
  have hname : (parsePath s).name = nm := by
    unfold PurePosixPath.name
    rw [hcat]
    simp
  have hnmne : nm ≠ "" := by
    intro hc
    exact h (by unfold basename; rw [hname, hc])
  have hdrop : (parsePath s).parts.dropLast = ps := by
    rw [hcat]
    simp
  have hps : parsePath s = ⟨(parsePath s).root, ps ++ [nm]⟩ := by rw [← hcat]
  by_cases hemp : suffixCh nm.data = []
  · have hsufeq : (parsePath s).suffix = "" := by
      unfold PurePosixPath.suffix
      rw [hname, hemp]
    have hws : (parsePath s).withSuffix "" = .ok ⟨(parsePath s).root, ps ++ [nm]⟩ := by
      simp only [PurePosixPath.withSuffix]
      rw [if_neg (by simp), if_neg (by simp), hname, if_neg hnmne, hsufeq,
        if_pos rfl, hdrop, str_append_nil]
    refine ⟨formatPath ⟨(parsePath s).root, ps ++ [nm]⟩, "", ?_, ?_⟩
    · unfold splitext
      rw [hws, hsufeq]
      rfl
    · rw [str_append_nil, ← hps, basename_formatPath_parsePath]
  · obtain ⟨i, hl, hi0, hi1, hsuf⟩ : ∃ i, lastDotIdx nm.data = some i ∧ 0 < i ∧
        i < nm.data.length - 1 ∧ suffixCh nm.data = nm.data.drop i := by
      unfold suffixCh at hemp ⊢
      cases hl : lastDotIdx nm.data with
      | none => simp [hl] at hemp
      | some i =>
        simp only [hl] at hemp ⊢
        by_cases hc : 0 < i ∧ i < nm.data.length - 1
        · exact ⟨i, rfl, hc.1, hc.2, by rw [if_pos hc]⟩
        · rw [if_neg hc] at hemp
          exact absurd rfl hemp
    have hilen : i + 1 < nm.data.length := by omega
    have hsufeq : (parsePath s).suffix = String.mk (nm.data.drop i) := by
      unfold PurePosixPath.suffix
      rw [hname, hsuf]
    have hdropnil : nm.data.drop i ≠ [] := by
      intro hc
      have hlen := congrArg List.length hc
      rw [List.length_drop, List.length_nil] at hlen
      omega
    have holdne : String.mk (nm.data.drop i) ≠ "" := by
      intro hc
      exact hdropnil (by simpa using congrArg String.data hc)
    have hlen2 : nm.data.length - (String.mk (nm.data.drop i)).data.length = i := by
      show nm.data.length - (nm.data.drop i).length = i
      rw [List.length_drop]
      omega
    have htakene : nm.data.take i ≠ [] := by
      intro hc
      have hlen := congrArg List.length hc
      rw [List.length_take, List.length_nil] at hlen
      omega
    have hws : (parsePath s).withSuffix "" =
        .ok ⟨(parsePath s).root, ps ++ [String.mk (nm.data.take i) ++ ""]⟩ := by
      simp only [PurePosixPath.withSuffix]
      rw [if_neg (by simp), if_neg (by simp), hname, if_neg hnmne, hsufeq,
        if_neg holdne, hlen2, hdrop]
    refine ⟨formatPath ⟨(parsePath s).root, ps ++ [String.mk (nm.data.take i) ++ ""]⟩,
      String.mk (nm.data.drop i), ?_, ?_⟩
    · unfold splitext
      rw [hws, hsufeq]
      rfl
    · rw [str_append_nil, formatPath_concat_append htakene,
        show String.mk (nm.data.take i) ++ String.mk (nm.data.drop i)
          = String.mk (nm.data.take i ++ nm.data.drop i) from rfl,
        List.take_append_drop, mk_data, ← hps, basename_formatPath_parsePath]

theorem claim_C5_witness :
    basename "/a/b.txt" ≠ ""
    ∧ ∃ r e, splitext "/a/b.txt" = .ok (r, e)
        ∧ basename (r ++ e) = basename "/a/b.txt" :=
  ⟨by decide, claim_C5_amended "/a/b.txt" (by decide)⟩

/-- C6: RoadPath("/a/b/c").relative_to("/a") returns a value equal to
RoadPath("b/c"), and for every receiver and base failing the lexical
descendant condition, relative_to raises the error propagated from the
pathlib primitive (a ValueError, not a PathError). -/
theorem claim_C6 :
    (RoadPath.ofString "/a/b/c").relative_to "/a" = .ok (RoadPath.ofString "b/c")
    ∧ ∀ self base : PurePosixPath, isLexicalDescendant self base = false →
        self.relative_to base = .error (.valueError "is not in the subpath") := by
  refine ⟨rfl, ?_⟩
  intro self base hnd
  have hguard : (if base.absParts.length = 0 then self.root ≠ 0
      else self.absParts.take base.absParts.length ≠ base.absParts) := by
    simp only [isLexicalDescendant] at hnd
    by_cases h0 : base.absParts.length = 0
    · rw [if_pos h0] at hnd
      rw [if_pos h0]
      simpa using hnd
    · rw [if_neg h0] at hnd
      rw [if_neg h0]
      simpa using hnd
  simp only [PurePosixPath.relative_to]
  rw [if_pos hguard]

theorem claim_C6_witness :
    isLexicalDescendant (parsePath "/a/b/c") (parsePath "/z") = false
    ∧ (parsePath "/a/b/c").relative_to (parsePath "/z")
        = .error (.valueError "is not in the subpath") :=
  ⟨rfl, claim_C6.2 (parsePath "/a/b/c") (parsePath "/z") rfl⟩

/-- C7: no modelled operation ever produces the module's PathError: every
failure of relative_to, with_suffix, splitext, relative, and
RoadPath.relative_to is the underlying primitive's ValueError. -/
theorem claim_C7 :
    (∀ (a b : PurePosixPath) (m : String), a.relative_to b ≠ .error (.pathError m))
    ∧ (∀ (p : PurePosixPath) (s m : String), p.withSuffix s ≠ .error (.pathError m))
    ∧ (∀ s m : String, splitext s ≠ .error (.pathError m))
    ∧ (∀ (cwd path : String) (base : Option String) (m : String),
        relative cwd path base ≠ .error (.pathError m))
    ∧ (∀ (r : RoadPath) (base m : String), r.relative_to base ≠ .error (.pathError m)) := by
  refine ⟨relative_to_not_pathError, withSuffix_not_pathError, ?_, ?_, ?_⟩
  · intro s m
    exact map_not_pathError _ _ (fun m2 => withSuffix_not_pathError _ _ m2) m
  · intro cwd path base m
    exact map_not_pathError _ _ (fun m2 => relative_to_not_pathError _ _ m2) m
  · intro r base m
    exact map_not_pathError _ _ (fun m2 => relative_to_not_pathError _ _ m2) m

/-- C8: expand is the composition expandvars after expanduser -- the tilde
expansion runs first, the variable substitution second -- and the order
matters: with V bound to a tilde, expanding in the source's order leaves the
tilde verbatim while the swapped order would resolve it through HOME. -/
theorem claim_C8 :
    (∀ (env : Env) (path : String),
        expand env path = expandvars env (expanduser env path))
    ∧ expand ⟨[("V", "~"), ("HOME", "/h")], none, []⟩ "$V" = "~"
    ∧ expanduser ⟨[("V", "~"), ("HOME", "/h")], none, []⟩
        (expandvars ⟨[("V", "~"), ("HOME", "/h")], none, []⟩ "$V") = "/h" :=
  ⟨fun _ _ => rfl, rfl, rfl⟩

/-- C9: comparing a RoadPath against a value that is not a RoadPath, a string
or a Path returns False (and cannot raise: the comparison is total). -/
theorem claim_C9 (p : RoadPath) (n : Nat) : RoadPath.eq p (.other n) = false := rfl

/-- C10: relative falls back to the current working directory when base is
the empty string, exactly as when base is the cwd itself, because the source
tests truthiness of base rather than comparing with None. -/
theorem claim_C10 (cwd path : String) :
    relative cwd path (some "") = relative cwd path (some cwd) := by
  simp [relative, ite_self]

end Roadpath
